import Mathlib

/-!
Verification of the container (space) core of the modelx repository,
shallowly embedded from `modelx/core/space.py`.

Spaces are identified by natural-number ids.  The C3 linearization loop of
`SpaceImpl._update_mro` is embedded as a fuel-indexed function (each loop
iteration removes at least one element from the sequences, so the chosen
fuel is always sufficient; `c3mergeAux_fuel_irrel` below makes that
precise).
-/

namespace ModelxSpace

/-- Total number of elements in a list of sequences; the loop measure of
the C3 merge loop in `SpaceImpl._update_mro`. -/
def totalLen (seqs : List (List Nat)) : Nat :=
  (seqs.map List.length).sum

/-- `not_head` test of `SpaceImpl._update_mro`: a candidate is a legal head
when it appears in the tail `s[1:]` of no sequence being merged. -/
def isLegalHead (c : Nat) (ne : List (List Nat)) : Bool :=
  ne.all fun s => !(s.tail.contains c)

/-- The candidate-selection loop of `SpaceImpl._update_mro`: scan the
non-empty sequences in order and pick the first whose head is a legal
head; `none` when every head is rejected (the `TypeError` case). -/
def selectCandidate (ne : List (List Nat)) : Option Nat :=
  match ne.find? (fun s => isLegalHead (s.headD 0) ne) with
  | some s => some (s.headD 0)
  | none => none

/-- The effect of one removal pass on a single sequence: `del seq[0]`
exactly when the head equals the selected candidate. -/
def stepOne (t : List Nat) (c : Nat) : List Nat :=
  match t with
  | [] => []
  | h :: tl => if h = c then tl else h :: tl

/-- One removal pass of `SpaceImpl._update_mro`: delete the selected
candidate from the front of every sequence whose head it is. -/
def c3step (seqs : List (List Nat)) (c : Nat) : List (List Nat) :=
  seqs.map fun s => stepOne s c

/-- The merge loop of `SpaceImpl._update_mro`, indexed by fuel.
Returns `none` when no legal head can be selected (the code raises
`TypeError("inconsistent hierarchy, no C3 MRO is possible")`). -/
def c3mergeAux : Nat → List (List Nat) → Option (List Nat)
  | 0, _ => none
  | fuel + 1, seqs =>
    let ne := seqs.filter fun s => !s.isEmpty
    if ne.isEmpty then some []
    else
      match selectCandidate ne with
      | none => none
      | some c =>
        match c3mergeAux fuel (c3step seqs c) with
        | none => none
        | some res => some (c :: res)

/-- The C3 merge of `SpaceImpl._update_mro`, run with enough fuel for the
loop to reach either completion or a candidate-selection failure. -/
def c3merge (seqs : List (List Nat)) : Option (List Nat) :=
  c3mergeAux (totalLen seqs + 1) seqs

/-- `SpaceImpl._update_mro`: merge the mros of the direct bases together
with the direct-base list itself, and prefix the space itself. -/
def update_mro (selfId : Nat) (basesMros : List (List Nat))
    (directBases : List Nat) : Option (List Nat) :=
  match c3merge (basesMros ++ [directBases]) with
  | none => none
  | some res => some (selfId :: res)

-- ---------------------------------------------------------------------
-- Facts about candidate selection and the removal pass

theorem selectCandidate_spec {ne : List (List Nat)} {c : Nat}
    (h : selectCandidate ne = some c) (hne : ∀ t ∈ ne, t ≠ []) :
    (∃ t ∈ ne, t.head? = some c) ∧ ∀ t ∈ ne, c ∉ t.tail := by
  unfold selectCandidate at h
  cases hfind : ne.find? (fun s => isLegalHead (s.headD 0) ne) with
  | none => rw [hfind] at h; exact absurd h (by simp)
  | some s =>
    rw [hfind] at h
    have hmem : s ∈ ne := List.mem_of_find?_eq_some hfind
    have hpred := List.find?_some hfind
    simp only [isLegalHead, List.all_eq_true, Bool.not_eq_true'] at hpred
    have hc : c = s.headD 0 := by simpa using h.symm
    subst hc
    constructor
    · refine ⟨s, hmem, ?_⟩
      cases s with
      | nil => exact absurd rfl (hne [] hmem)
      | cons a t => simp
    · intro t ht hmemtail
      have h2 := hpred t ht
      rw [List.contains_eq_any_beq] at h2
      simp only [List.any_eq_false] at h2
      have h3 := h2 _ hmemtail
      simp at h3

theorem c3step_mem {seqs : List (List Nat)} {c : Nat} {t' : List Nat}
    (h : t' ∈ c3step seqs c) :
    ∃ t ∈ seqs, t' = stepOne t c := by
  unfold c3step at h
  obtain ⟨t, ht, rfl⟩ := List.mem_map.mp h
  exact ⟨t, ht, rfl⟩

theorem stepOne_length_le (t : List Nat) (c : Nat) :
    (stepOne t c).length ≤ t.length := by
  cases t with
  | nil => simp [stepOne]
  | cons a tl => by_cases hac : a = c <;> simp [stepOne, hac]

theorem totalLen_cons (t : List Nat) (rest : List (List Nat)) :
    totalLen (t :: rest) = t.length + totalLen rest := by
  simp [totalLen]

theorem c3step_cons (t : List Nat) (rest : List (List Nat)) (c : Nat) :
    c3step (t :: rest) c = stepOne t c :: c3step rest c := rfl

theorem totalLen_c3step_le (seqs : List (List Nat)) (c : Nat) :
    totalLen (c3step seqs c) ≤ totalLen seqs := by
  induction seqs with
  | nil => simp [c3step, totalLen]
  | cons t rest ih =>
    rw [c3step_cons, totalLen_cons, totalLen_cons]
    have := stepOne_length_le t c
    omega

theorem totalLen_c3step_lt {seqs : List (List Nat)} {c : Nat}
    (h : ∃ t ∈ seqs, t.head? = some c) :
    totalLen (c3step seqs c) < totalLen seqs := by
  induction seqs with
  | nil => obtain ⟨t, ht, _⟩ := h; exact absurd ht (by simp)
  | cons t rest ih =>
    obtain ⟨u, hu, hhead⟩ := h
    rw [c3step_cons, totalLen_cons, totalLen_cons]
    rcases List.mem_cons.mp hu with rfl | hu'
    · cases u with
      | nil => simp at hhead
      | cons a tl =>
        have hac : a = c := by simpa using hhead
        have := totalLen_c3step_le rest c
        simp only [stepOne, hac, if_true, List.length_cons]
        omega
    · have := ih ⟨u, hu', hhead⟩
      have := stepOne_length_le t c
      omega

theorem c3mergeAux_fuel_irrel :
    ∀ (fuel fuel' : Nat) (seqs : List (List Nat)),
      totalLen seqs < fuel → totalLen seqs < fuel' →
      c3mergeAux fuel seqs = c3mergeAux fuel' seqs := by
  intro fuel
  induction fuel with
  | zero => intro fuel' seqs h; omega
  | succ f ih =>
    intro fuel' seqs h h'
    cases fuel' with
    | zero => omega
    | succ f' =>
      simp only [c3mergeAux]
      cases hne : (seqs.filter fun s => !s.isEmpty).isEmpty
      · simp only [hne, Bool.false_eq_true, if_false]
        cases hsel : selectCandidate (seqs.filter fun s => !s.isEmpty) with
        | none => rfl
        | some c =>
          have hnonnil : ∀ t ∈ (seqs.filter fun s => !s.isEmpty), t ≠ [] := by
            intro t ht
            have := List.of_mem_filter ht
            simpa using this
          obtain ⟨⟨t, htmem, hthead⟩, _⟩ := selectCandidate_spec hsel hnonnil
          have htseqs : t ∈ seqs := List.mem_of_mem_filter htmem
          have hlt := totalLen_c3step_lt ⟨t, htseqs, hthead⟩
          have heq := ih f' (c3step seqs c) (by omega) (by omega)
          simp only [heq]
      · simp [hne]

-- ---------------------------------------------------------------------
-- Structural facts about the merge loop

theorem all_nil_of_filter_isEmpty {seqs : List (List Nat)}
    (h : (seqs.filter fun s => !s.isEmpty).isEmpty = true) :
    ∀ t ∈ seqs, t = [] := by
  intro t ht
  rw [List.isEmpty_iff, List.filter_eq_nil_iff] at h
  have := h t ht
  simpa using this

theorem mem_of_mem_stepOne {x : Nat} {t : List Nat} {c : Nat}
    (h : x ∈ stepOne t c) : x ∈ t := by
  cases t with
  | nil => simp [stepOne] at h
  | cons a tl =>
    by_cases hac : a = c
    · simp only [stepOne, hac, if_true] at h
      exact List.mem_cons_of_mem a h
    · simpa [stepOne, hac] using h

/-- Every sequence handed to the merge loop of `SpaceImpl._update_mro`
reappears, in order, inside the merge result: the loop only ever deletes
sequence heads equal to the element it has just emitted. -/
theorem c3mergeAux_sublist :
    ∀ (fuel : Nat) (seqs : List (List Nat)) (res : List Nat),
      c3mergeAux fuel seqs = some res → ∀ t ∈ seqs, t.Sublist res := by
  intro fuel
  induction fuel with
  | zero => intro seqs res h; simp [c3mergeAux] at h
  | succ f ih =>
    intro seqs res h t ht
    simp only [c3mergeAux] at h
    by_cases hne : (seqs.filter fun s => !s.isEmpty).isEmpty
    · rw [if_pos hne] at h
      have hres : res = [] := by simpa using h.symm
      have := all_nil_of_filter_isEmpty hne t ht
      simp [this, hres]
    · rw [if_neg hne] at h
      cases hsel : selectCandidate (seqs.filter fun s => !s.isEmpty) with
      | none => rw [hsel] at h; simp at h
      | some c =>
        rw [hsel] at h
        dsimp only at h
        cases hrec : c3mergeAux f (c3step seqs c) with
        | none => rw [hrec] at h; simp at h
        | some res' =>
          rw [hrec] at h
          have hres : res = c :: res' := by simpa using h.symm
          subst hres
          have hstep : stepOne t c ∈ c3step seqs c :=
            List.mem_map_of_mem (fun s => stepOne s c) ht
          have hsub := ih (c3step seqs c) res' hrec (stepOne t c) hstep
          cases t with
          | nil => simp
          | cons a tl =>
            by_cases hac : a = c
            · subst hac
              simp only [stepOne, if_true] at hsub
              exact hsub.cons₂ a
            · simp only [stepOne, if_neg hac] at hsub
              exact hsub.cons c

/-- Every element of the merge result comes from one of the sequences
being merged. -/
theorem c3mergeAux_mem :
    ∀ (fuel : Nat) (seqs : List (List Nat)) (res : List Nat),
      c3mergeAux fuel seqs = some res → ∀ x ∈ res, ∃ t ∈ seqs, x ∈ t := by
  intro fuel
  induction fuel with
  | zero => intro seqs res h; simp [c3mergeAux] at h
  | succ f ih =>
    intro seqs res h x hx
    simp only [c3mergeAux] at h
    by_cases hne : (seqs.filter fun s => !s.isEmpty).isEmpty
    · rw [if_pos hne] at h
      have hres : res = [] := by simpa using h.symm
      subst hres
      simp at hx
    · rw [if_neg hne] at h
      cases hsel : selectCandidate (seqs.filter fun s => !s.isEmpty) with
      | none => rw [hsel] at h; simp at h
      | some c =>
        rw [hsel] at h
        dsimp only at h
        cases hrec : c3mergeAux f (c3step seqs c) with
        | none => rw [hrec] at h; simp at h
        | some res' =>
          rw [hrec] at h
          have hres : res = c :: res' := by simpa using h.symm
          subst hres
          have hnonnil : ∀ t ∈ (seqs.filter fun s => !s.isEmpty), t ≠ [] := by
            intro t ht
            have := List.of_mem_filter ht
            simpa using this
          rcases List.mem_cons.mp hx with rfl | hx'
          · obtain ⟨⟨t, htmem, hthead⟩, _⟩ := selectCandidate_spec hsel hnonnil
            refine ⟨t, List.mem_of_mem_filter htmem, ?_⟩
            cases t with
            | nil => simp at hthead
            | cons a tl => simp at hthead; simp [hthead]
          · obtain ⟨t', ht'mem, hxt'⟩ := ih (c3step seqs c) res' hrec x hx'
            obtain ⟨t, htmem, rfl⟩ := c3step_mem ht'mem
            exact ⟨t, htmem, mem_of_mem_stepOne hxt'⟩

/-- The merge result never repeats an element: once a legal head is
emitted it has been deleted from every sequence front and, being a legal
head, occurred in no sequence tail. -/
theorem c3mergeAux_nodup :
    ∀ (fuel : Nat) (seqs : List (List Nat)) (res : List Nat),
      c3mergeAux fuel seqs = some res → res.Nodup := by
  intro fuel
  induction fuel with
  | zero => intro seqs res h; simp [c3mergeAux] at h
  | succ f ih =>
    intro seqs res h
    simp only [c3mergeAux] at h
    by_cases hne : (seqs.filter fun s => !s.isEmpty).isEmpty
    · rw [if_pos hne] at h
      have hres : res = [] := by simpa using h.symm
      simp [hres]
    · rw [if_neg hne] at h
      cases hsel : selectCandidate (seqs.filter fun s => !s.isEmpty) with
      | none => rw [hsel] at h; simp at h
      | some c =>
        rw [hsel] at h
        dsimp only at h
        cases hrec : c3mergeAux f (c3step seqs c) with
        | none => rw [hrec] at h; simp at h
        | some res' =>
          rw [hrec] at h
          have hres : res = c :: res' := by simpa using h.symm
          subst hres
          have hnonnil : ∀ t ∈ (seqs.filter fun s => !s.isEmpty), t ≠ [] := by
            intro t ht
            have := List.of_mem_filter ht
            simpa using this
          obtain ⟨_, hlegal⟩ := selectCandidate_spec hsel hnonnil
          refine List.nodup_cons.mpr ⟨?_, ih (c3step seqs c) res' hrec⟩
          intro hcres
          obtain ⟨t', ht'mem, hct'⟩ := c3mergeAux_mem f (c3step seqs c) res' hrec c hcres
          obtain ⟨t, htmem, rfl⟩ := c3step_mem ht'mem
          cases t with
          | nil => simp [stepOne] at hct'
          | cons a tl =>
            have htfil : (a :: tl) ∈ (seqs.filter fun s => !s.isEmpty) :=
              List.mem_filter.mpr ⟨htmem, by simp⟩
            have htail := hlegal _ htfil
            by_cases hac : a = c
            · subst hac
              simp only [stepOne, if_true] at hct'
              exact htail (by simpa using hct')
            · simp only [stepOne, if_neg hac] at hct'
              rcases List.mem_cons.mp hct' with rfl | hct''
              · exact hac rfl
              · exact htail (by simpa using hct'')

-- ---------------------------------------------------------------------
-- Spaces, their direct bases, and recursive mro construction

/-- Sequence a list of optional values; `none` as soon as one is `none`. -/
def optList {α : Type} : List (Option α) → Option (List α)
  | [] => some []
  | none :: _ => none
  | some a :: rest =>
    match optList rest with
    | none => none
    | some ys => some (a :: ys)

theorem optList_map_forall {α β : Type} (f : α → Option β) :
    ∀ (bs : List α) (ms : List β), optList (bs.map f) = some ms →
      (∀ b ∈ bs, ∃ m ∈ ms, f b = some m) ∧
      (∀ m ∈ ms, ∃ b ∈ bs, f b = some m) := by
  intro bs
  induction bs with
  | nil =>
    intro ms h
    simp only [List.map_nil, optList] at h
    have : ms = [] := by simpa using h.symm
    subst this
    simp
  | cons b rest ih =>
    intro ms h
    simp only [List.map_cons] at h
    cases hf : f b with
    | none => rw [hf] at h; simp [optList] at h
    | some m0 =>
      rw [hf] at h
      simp only [optList] at h
      cases hrec : optList (rest.map f) with
      | none => rw [hrec] at h; simp at h
      | some ms' =>
        rw [hrec] at h
        dsimp only at h
        have hms : ms = m0 :: ms' := by simpa using h.symm
        subst hms
        obtain ⟨fwd, bwd⟩ := ih ms' hrec
        constructor
        · intro b' hb'
          rcases List.mem_cons.mp hb' with rfl | hb''
          · exact ⟨m0, by simp, hf⟩
          · obtain ⟨m, hm, hfm⟩ := fwd b' hb''
            exact ⟨m, by simp [hm], hfm⟩
        · intro m hm
          rcases List.mem_cons.mp hm with rfl | hm'
          · exact ⟨b, by simp, hf⟩
          · obtain ⟨b', hb', hfb'⟩ := bwd m hm'
            exact ⟨b', by simp [hb'], hfb'⟩

/-- A universe of spaces identified by construction order: every direct
base of a space was constructed before it (`SpaceImpl.__init__` receives
already-constructed `SpaceImpl` bases). -/
structure SpaceUniverse where
  dbases : Nat → List Nat
  dbases_lt : ∀ {s b : Nat}, b ∈ dbases s → b < s

/-- `SpaceImpl._update_mro` applied recursively along construction order:
the mro of a space is `update_mro` of the (already computed) mros of its
direct bases.  Fuel `s + 1` always suffices because bases have smaller
ids. -/
def mroOfAux (U : SpaceUniverse) : Nat → Nat → Option (List Nat)
  | 0, _ => none
  | fuel + 1, s =>
    match optList ((U.dbases s).map (mroOfAux U fuel)) with
    | none => none
    | some ms => update_mro s ms (U.dbases s)

/-- The mro stored on a space at construction. -/
def mroOf (U : SpaceUniverse) (s : Nat) : Option (List Nat) :=
  mroOfAux U (s + 1) s

/-- `b` is a (transitive) base of `s`: reachable from `s` through one or
more `direct_bases` steps. -/
inductive TBase (U : SpaceUniverse) : Nat → Nat → Prop
  | base : ∀ {s b : Nat}, b ∈ U.dbases s → TBase U s b
  | step : ∀ {s b c : Nat}, b ∈ U.dbases s → TBase U b c → TBase U s c

theorem TBase.lt {U : SpaceUniverse} {s b : Nat} (h : TBase U s b) : b < s := by
  induction h with
  | base hb => exact U.dbases_lt hb
  | step hb _ ih => exact lt_trans ih (U.dbases_lt hb)

theorem eq_cons_of_head? {t : List Nat} {b : Nat} (h : t.head? = some b) :
    t = b :: t.tail := by
  cases t with
  | nil => simp at h
  | cons a tl => simp at h; simp [h]

/-- Master invariant of the recursively computed mro: it starts with the
space, its tail consists exactly of the transitive bases, it has no
duplicates, every element precedes all of its own transitive bases, and
the direct-base order is preserved. -/
theorem mroOfAux_spec (U : SpaceUniverse) :
    ∀ (fuel s : Nat) (l : List Nat), mroOfAux U fuel s = some l →
      l.head? = some s ∧
      (∀ x ∈ l.tail, TBase U s x) ∧
      (∀ y : Nat, TBase U s y → y ∈ l.tail) ∧
      l.Nodup ∧
      (∀ x y : Nat, x ∈ l → TBase U x y → [x, y].Sublist l) ∧
      (U.dbases s).Sublist l.tail := by
  intro fuel
  induction fuel with
  | zero => intro s l h; simp [mroOfAux] at h
  | succ f ih =>
    intro s l h
    simp only [mroOfAux] at h
    cases hopt : optList ((U.dbases s).map (mroOfAux U f)) with
    | none => rw [hopt] at h; simp at h
    | some ms =>
      rw [hopt] at h
      dsimp only at h
      unfold update_mro at h
      cases hmerge : c3merge (ms ++ [U.dbases s]) with
      | none => rw [hmerge] at h; simp at h
      | some res =>
        rw [hmerge] at h
        dsimp only at h
        have hl : l = s :: res := by simpa using h.symm
        subst hl
        obtain ⟨fwd, bwd⟩ := optList_map_forall (mroOfAux U f) (U.dbases s) ms hopt
        unfold c3merge at hmerge
        have hsub := c3mergeAux_sublist _ _ _ hmerge
        have hmem := c3mergeAux_mem _ _ _ hmerge
        have hnodupres := c3mergeAux_nodup _ _ _ hmerge
        have hdbmem : U.dbases s ∈ ms ++ [U.dbases s] :=
          List.mem_append_right ms (by simp)
        -- every element of the merge result is a transitive base of s
        have hK1 : ∀ x ∈ res, TBase U s x := by
          intro x hx
          obtain ⟨t, ht, hxt⟩ := hmem x hx
          rcases List.mem_append.mp ht with htms | htlast
          · obtain ⟨b, hbin, hbt⟩ := bwd t htms
            obtain ⟨hhead, htail, _, _, _, _⟩ := ih b t hbt
            rw [eq_cons_of_head? hhead] at hxt
            rcases List.mem_cons.mp hxt with rfl | hxt'
            · exact TBase.base hbin
            · exact TBase.step hbin (htail x hxt')
          · have : t = U.dbases s := by simpa using htlast
            subst this
            exact TBase.base hxt
        -- every transitive base of s appears in the merge result
        have hK2 : ∀ y : Nat, TBase U s y → y ∈ res := by
          intro y hy
          cases hy with
          | base hb => exact (hsub _ hdbmem).subset hb
          | step hb hby =>
            rename_i b
            obtain ⟨m, hmmem, hbm⟩ := fwd b hb
            obtain ⟨_, _, hmemT, _, _, _⟩ := ih b m hbm
            have hym : y ∈ m := by
              have := hmemT y hby
              exact List.mem_of_mem_tail this
            exact (hsub m (List.mem_append_left _ hmmem)).subset hym
        have hK3 : s ∉ res := by
          intro hs
          exact absurd (hK1 s hs).lt (lt_irrefl s)
        refine ⟨by simp, ?_, ?_, ?_, ?_, ?_⟩
        · simpa using hK1
        · simpa using hK2
        · exact List.nodup_cons.mpr ⟨hK3, hnodupres⟩
        · intro x y hx hxy
          rcases List.mem_cons.mp hx with rfl | hxres
          · have hy : y ∈ res := hK2 y hxy
            exact (List.singleton_sublist.mpr hy).cons₂ x
          · obtain ⟨t, ht, hxt⟩ := hmem x hxres
            have hfrom_m : ∃ m ∈ ms, ∃ b : Nat, mroOfAux U f b = some m ∧ x ∈ m := by
              rcases List.mem_append.mp ht with htms | htlast
              · obtain ⟨b, _, hbt⟩ := bwd t htms
                exact ⟨t, htms, b, hbt, hxt⟩
              · have : t = U.dbases s := by simpa using htlast
                subst this
                obtain ⟨m, hmmem, hxm⟩ := fwd x hxt
                obtain ⟨hhead, _, _, _, _, _⟩ := ih x m hxm
                refine ⟨m, hmmem, x, hxm, ?_⟩
                rw [eq_cons_of_head? hhead]
                simp
            obtain ⟨m, hmmem, b, hbm, hxm⟩ := hfrom_m
            obtain ⟨_, _, _, _, hprec, _⟩ := ih b m hbm
            have hxy_m := hprec x y hxm hxy
            exact (hxy_m.trans (hsub m (List.mem_append_left _ hmmem))).cons s
        · simpa using hsub _ hdbmem

-- ---------------------------------------------------------------------
-- C1: correctness of the linearization computed at construction

/-- C1: for every container with a fixed ordered sequence of direct bases
for which a C3-consistent order exists, the linearization computed by
`SpaceImpl._update_mro` at construction (i) has the container itself as
its first element, (ii) places every container in it before all of its
transitive bases, (iii) consists exactly of the container and its
transitive bases, (iv) preserves the relative order of the direct-base
list, and (v) is unique and reproducible: the computation is a function
of the direct-base assignment alone. -/
theorem update_mro_c3 (U : SpaceUniverse) (s : Nat) (l : List Nat)
    (h : mroOf U s = some l) :
    l.head? = some s ∧
    (∀ x y : Nat, x ∈ l → TBase U x y → [x, y].Sublist l) ∧
    (∀ x : Nat, x ∈ l ↔ (x = s ∨ TBase U s x)) ∧
    (U.dbases s).Sublist l ∧
    (∀ U' : SpaceUniverse, U'.dbases = U.dbases → mroOf U' s = some l) := by
  obtain ⟨hhead, htail, hmemT, hnodup, hprec, hdb⟩ := mroOfAux_spec U (s + 1) s l h
  have hl : l = s :: l.tail := eq_cons_of_head? hhead
  refine ⟨hhead, hprec, ?_, ?_, ?_⟩
  · intro x
    constructor
    · intro hx
      rw [hl] at hx
      rcases List.mem_cons.mp hx with rfl | hx'
      · exact Or.inl rfl
      · exact Or.inr (htail x hx')
    · rintro (rfl | hx)
      · rw [hl]; exact List.mem_cons_self x l.tail
      · exact List.mem_of_mem_tail (hmemT x hx)
  · exact hdb.trans (List.tail_sublist l)
  · intro U' hU'
    have hUeq : U' = U := by
      cases U
      cases U'
      simp only at hU'
      subst hU'
      rfl
    rw [hUeq]
    exact h

/-- Direct-base assignment of a concrete diamond universe:
`1` has no bases, `2` and `3` have base `[1]`, `4` has bases `[2, 3]`. -/
def dbEx (s : Nat) : List Nat :=
  if s = 2 then [1] else if s = 3 then [1] else if s = 4 then [2, 3] else []

theorem dbEx_lt : ∀ {s b : Nat}, b ∈ dbEx s → b < s := by
  intro s b h
  unfold dbEx at h
  split_ifs at h with h2 h3 h4
  · subst h2; simp at h; omega
  · subst h3; simp at h; omega
  · subst h4; simp at h; rcases h with rfl | rfl <;> omega
  · simp at h

/-- The diamond universe used as a concrete witness. -/
def UEx : SpaceUniverse := ⟨dbEx, dbEx_lt⟩

theorem update_mro_c3_witness :
    ([4, 2, 3, 1] : List Nat).head? = some 4 ∧
    ([2, 3] : List Nat).Sublist [4, 2, 3, 1] ∧
    ([2, 1] : List Nat).Sublist [4, 2, 3, 1] := by
  have h : mroOf UEx 4 = some [4, 2, 3, 1] := by decide
  have spec := update_mro_c3 UEx 4 [4, 2, 3, 1] h
  refine ⟨spec.1, ?_, ?_⟩
  · have hsubl := spec.2.2.2.1
    have heq : UEx.dbases 4 = [2, 3] := by decide
    rw [heq] at hsubl
    exact hsubl
  · exact spec.2.1 2 1 (by decide) (TBase.base (by decide))

-- ---------------------------------------------------------------------
-- Association-list operations shared by the state embeddings
-- (Python 3.6+ dicts: insertion-ordered, assignment updates in place or
-- appends, `del` removes the key)

def lookupA {κ α : Type} [DecidableEq κ] : List (κ × α) → κ → Option α
  | [], _ => none
  | (k, v) :: rest, key => if k = key then some v else lookupA rest key

def insertA {κ α : Type} [DecidableEq κ] : List (κ × α) → κ → α → List (κ × α)
  | [], key, v => [(key, v)]
  | (k, w) :: rest, key, v =>
    if k = key then (k, v) :: rest else (k, w) :: insertA rest key v

def deleteA {κ α : Type} [DecidableEq κ] : List (κ × α) → κ → List (κ × α)
  | [], _ => []
  | (k, w) :: rest, key =>
    if k = key then deleteA rest key else (k, w) :: deleteA rest key

theorem lookupA_insertA_self {κ α : Type} [DecidableEq κ]
    (l : List (κ × α)) (key : κ) (v : α) :
    lookupA (insertA l key v) key = some v := by
  induction l with
  | nil => simp [insertA, lookupA]
  | cons p rest ih =>
    obtain ⟨k, w⟩ := p
    by_cases hk : k = key
    · simp [insertA, lookupA, hk]
    · simp [insertA, lookupA, hk, ih]

-- ---------------------------------------------------------------------
-- Name validity and container construction (C4, C7)

/-- Modelled from the spec: `is_valid_name` (modelx/core/util.py, which is
not under src/) — a name is valid when it is a valid identifier: a letter
or underscore followed by letters, digits or underscores. -/
def is_valid_name (s : String) : Bool :=
  match s.data with
  | [] => false
  | c :: cs => (c.isAlpha || c = '_') && cs.all fun d => d.isAlphanum || d = '_'

inductive NewSpaceErr
  | dupName
  | invalidName
  | inheritErr
deriving DecidableEq

/-- The member collections of a parent container as seen by
`SpaceImpl.__init__`: its child-space maps (static and dynamic), its cell
and ref names (part of the merged namespace, but not consulted by
`has_space`), and the id of the next space to be constructed. -/
structure ParentState where
  staticSpaces : List (String × Nat)
  dynamicSpaces : List (String × Nat)
  cells : List String
  refs : List String
  nextId : Nat
deriving DecidableEq

def spacesKeys (p : ParentState) : List String :=
  p.staticSpaces.map Prod.fst ++ p.dynamicSpaces.map Prod.fst

/-- `SpaceContainerImpl.has_space`: membership in the `spaces` view only
(static and dynamic child spaces). -/
def has_space (p : ParentState) (name : String) : Bool :=
  (spacesKeys p).contains name

/-- The parent's merged top-level namespace: cells, child spaces, refs. -/
def mergedNames (p : ParentState) : List String :=
  p.cells ++ spacesKeys p ++ p.refs

/-- `SpaceImpl.__init__` for an explicitly given name: first the
`has_space` duplicate check, then the `is_valid_name` check, then
`_update_mro` (which raises `TypeError` on an inconsistent hierarchy);
only after all checks succeed is the space registered in the parent
(in `_dynamic_spaces` when it has arguments, else in `_static_spaces`).
On any failure the parent is left untouched. -/
def space_init (p : ParentState) (name : String) (basesMros : List (List Nat))
    (bases : List Nat) (isDynamic : Bool) :
    Except NewSpaceErr Nat × ParentState :=
  if has_space p name then (.error .dupName, p)
  else if !(is_valid_name name) then (.error .invalidName, p)
  else
    match update_mro p.nextId basesMros bases with
    | none => (.error .inheritErr, p)
    | some _ =>
      if isDynamic then
        (.ok p.nextId,
         { p with dynamicSpaces := insertA p.dynamicSpaces name p.nextId,
                  nextId := p.nextId + 1 })
      else
        (.ok p.nextId,
         { p with staticSpaces := insertA p.staticSpaces name p.nextId,
                  nextId := p.nextId + 1 })

/-- C4: when the direct bases admit no C3-consistent merge (the merge loop
finds no selectable head at some step), construction fails with the
inheritance-inconsistency error, and the failure is fatal: the parent is
returned unchanged, so no container is registered in it. -/
theorem space_init_inconsistent_bases (p : ParentState) (name : String)
    (bm : List (List Nat)) (bs : List Nat) (dyn : Bool)
    (hns : has_space p name = false) (hv : is_valid_name name = true)
    (hmerge : c3merge (bm ++ [bs]) = none) :
    space_init p name bm bs dyn = (.error .inheritErr, p) := by
  simp [space_init, hns, hv, update_mro, hmerge]

def pEmpty : ParentState := ⟨[], [], [], [], 0⟩

theorem space_init_inconsistent_bases_witness :
    has_space pEmpty "s" = false ∧ is_valid_name "s" = true ∧
    c3merge [[3, 1, 2], [4, 2, 1], [3, 4]] = none ∧
    space_init pEmpty "s" [[3, 1, 2], [4, 2, 1]] [3, 4] false =
      (.error .inheritErr, pEmpty) :=
  ⟨by decide, by decide, by decide,
    space_init_inconsistent_bases pEmpty "s" [[3, 1, 2], [4, 2, 1]] [3, 4]
      false (by decide) (by decide) (by decide)⟩

-- ---------------------------------------------------------------------
-- C7: name checks at container construction

def pEx : ParentState := ⟨[], [], ["x"], [], 0⟩

/-- C7 counterexample: a cell named `x` in the parent's merged namespace
does not block creation of a child space named `x`; `SpaceImpl.__init__`
consults only `parent.has_space`, i.e. the child-space maps, so the
construction succeeds even though the name is taken in the merged
namespace. -/
theorem space_init_dup_check_spaces_only :
    ("x" ∈ mergedNames pEx) ∧
    space_init pEx "x" [] [] false =
      (.ok 0, ⟨[("x", 0)], [], ["x"], [], 1⟩) := by
  constructor
  · decide
  · rfl

/-- C7 (amended): creating a child container fails with a duplicate-name
error when the requested name is already among the parent's child spaces
(`has_space`; the merged namespace is not consulted), fails with a name
error when the name is not a valid identifier (this check runs after the
duplicate check), and on every failure the parent's member collections
are unchanged. -/
theorem space_init_name_checks (p : ParentState) (name : String)
    (bm : List (List Nat)) (bs : List Nat) (dyn : Bool) :
    (has_space p name = true →
        space_init p name bm bs dyn = (.error .dupName, p)) ∧
    (has_space p name = false → is_valid_name name = false →
        space_init p name bm bs dyn = (.error .invalidName, p)) ∧
    (∀ (e : NewSpaceErr) (p' : ParentState),
        space_init p name bm bs dyn = (.error e, p') → p' = p) := by
  refine ⟨?_, ?_, ?_⟩
  · intro hd; simp [space_init, hd]
  · intro hd hv; simp [space_init, hd, hv]
  · intro e p' h
    cases hd : has_space p name with
    | true =>
      simp [space_init, hd] at h
      exact h.2.symm
    | false =>
      cases hv : is_valid_name name with
      | false =>
        simp [space_init, hd, hv] at h
        exact h.2.symm
      | true =>
        cases hu : update_mro p.nextId bm bs with
        | none =>
          simp [space_init, hd, hv, hu] at h
          exact h.2.symm
        | some m =>
          cases dyn with
          | false => simp [space_init, hd, hv, hu] at h
          | true => simp [space_init, hd, hv, hu] at h

def pDup : ParentState := ⟨[("x", 0)], [], [], [], 1⟩

theorem space_init_name_checks_witness :
    has_space pDup "x" = true ∧
    space_init pDup "x" [] [] false = (.error .dupName, pDup) :=
  ⟨by decide, (space_init_name_checks pDup "x" [] [] false).1 (by decide)⟩

-- ---------------------------------------------------------------------
-- Parametrized child containers (C2, C8, C10)

theorem lookupA_mem {κ α : Type} [DecidableEq κ] :
    ∀ {l : List (κ × α)} {k : κ} {v : α}, lookupA l k = some v → (k, v) ∈ l := by
  intro l
  induction l with
  | nil => intro k v h; simp [lookupA] at h
  | cons p rest ih =>
    intro k v h
    obtain ⟨k0, v0⟩ := p
    by_cases hk : k0 = k
    · subst hk
      simp only [lookupA, eq_self_iff_true, if_true, Option.some.injEq] at h
      subst h
      exact List.mem_cons_self _ _
    · simp only [lookupA, if_neg hk] at h
      exact List.mem_cons_of_mem _ (ih h)

inductive PErr
  | err
deriving DecidableEq

/-- The child space constructed and returned by
`SpaceContainerImpl.get_space`: a fresh id, the call arguments stored as
the `arguments` construction parameter, and the remaining construction
parameters produced by the parameter formula. -/
structure SpaceRec where
  sid : Nat
  args : List Int
  params : List (String × Int)
deriving DecidableEq

/-- The state visible to `SpaceContainerImpl.get_space`: the container's
`param_spaces` cache keyed by argument values, the id of the next space
to be constructed, and the process-wide `system.self` reference. -/
structure ContState where
  paramSpaces : List (List Int × SpaceRec)
  nextId : Nat
  sysSelf : Nat
deriving DecidableEq

/-- A parameter formula as run by `SpaceArgs.eval_formula`: it observes
the process state (in particular `system.self`) and either raises or
returns `None` or a mapping of construction parameters, possibly
changing the state. -/
def PFormula : Type :=
  ContState → Except PErr (Option (List (String × Int))) × ContState

/-- `SpaceContainerImpl.get_space`: when the argument values are already a
key of `param_spaces`, return the cached child without touching the state;
otherwise save `system.self`, set it to this container, evaluate the
parameter formula — restoring `system.self` afterwards (`finally`, so
also when the formula raises) — treat a `None` result as an empty
mapping, construct a fresh child space carrying the call arguments,
cache it under the argument values, and return it. -/
def get_space (selfId : Nat) (f : PFormula) (st : ContState)
    (args : List Int) : Except PErr SpaceRec × ContState :=
  match lookupA st.paramSpaces args with
  | some sp => (.ok sp, st)
  | none =>
    let lastSelf := st.sysSelf
    let fr := f { st with sysSelf := selfId }
    let st2 := { fr.2 with sysSelf := lastSelf }
    match fr.1 with
    | .error e => (.error e, st2)
    | .ok r =>
      let sp : SpaceRec := ⟨st2.nextId, args, r.getD []⟩
      (.ok sp,
       { st2 with paramSpaces := (args, sp) :: st2.paramSpaces,
                  nextId := st2.nextId + 1 })

/-- Well-formedness of a container's cache: cached ids are below the next
fresh id and pairwise distinct. -/
def ContOk (st : ContState) : Prop :=
  (∀ p ∈ st.paramSpaces, p.2.sid < st.nextId) ∧
  st.paramSpaces.Pairwise fun p q => p.2.sid ≠ q.2.sid

/-- A parameter formula that does not touch this container's own cache
and never recycles ids (any mix of reads and nested constructions on
other containers satisfies this). -/
def FormulaTame (f : PFormula) : Prop :=
  ∀ s : ContState, (f s).2.paramSpaces = s.paramSpaces ∧
    s.nextId ≤ (f s).2.nextId

theorem get_space_ok_state {selfId : Nat} {f : PFormula} {st : ContState}
    {args : List Int} {sp : SpaceRec} {st1 : ContState}
    (hok : ContOk st) (htame : FormulaTame f)
    (h : get_space selfId f st args = (.ok sp, st1)) :
    ContOk st1 ∧ (args, sp) ∈ st1.paramSpaces ∧
      ∀ q ∈ st.paramSpaces, q ∈ st1.paramSpaces := by
  unfold get_space at h
  cases hl : lookupA st.paramSpaces args with
  | some sp0 =>
    rw [hl] at h
    dsimp only at h
    have hsp : sp0 = sp := by
      have := congrArg Prod.fst h
      simpa using this
    have hst : st = st1 := congrArg Prod.snd h
    subst hsp
    subst hst
    exact ⟨hok, lookupA_mem hl, fun q hq => hq⟩
  | none =>
    rw [hl] at h
    dsimp only at h
    cases hfr : f { st with sysSelf := selfId } with
    | mk r s2 =>
      rw [hfr] at h
      dsimp only at h
      obtain ⟨hps, hnx⟩ := htame { st with sysSelf := selfId }
      rw [hfr] at hps hnx
      dsimp only at hps hnx
      cases r with
      | error e => simp at h
      | ok ro =>
        dsimp only at h
        have hsp : (⟨s2.nextId, args, ro.getD []⟩ : SpaceRec) = sp := by
          have := congrArg Prod.fst h
          simpa using this
        have hst : st1 = ⟨(args, sp) :: s2.paramSpaces, s2.nextId + 1,
            st.sysSelf⟩ := by
          have h2 := congrArg Prod.snd h
          dsimp only at h2
          rw [← h2, hsp]
        subst hst
        refine ⟨⟨?_, ?_⟩, ?_, ?_⟩
        · intro p hp
          dsimp only
          rcases List.mem_cons.mp hp with rfl | hp'
          · rw [← hsp]; dsimp; omega
          · have := hok.1 p (hps ▸ hp')
            omega
        · refine List.pairwise_cons.mpr ⟨?_, ?_⟩
          · intro q hq
            have := hok.1 q (hps ▸ hq)
            rw [← hsp]
            dsimp
            omega
          · rw [hps]; exact hok.2
        · exact List.mem_cons_self _ _
        · intro q hq
          exact List.mem_cons_of_mem _ (hps ▸ hq)

theorem get_space_caches {selfId : Nat} {f : PFormula} {st : ContState}
    {args : List Int} {sp : SpaceRec} {st1 : ContState}
    (h : get_space selfId f st args = (.ok sp, st1)) :
    lookupA st1.paramSpaces args = some sp := by
  unfold get_space at h
  cases hl : lookupA st.paramSpaces args with
  | some sp0 =>
    rw [hl] at h
    dsimp only at h
    have hsp : sp0 = sp := by
      have := congrArg Prod.fst h
      simpa using this
    have hst : st = st1 := congrArg Prod.snd h
    subst hsp
    subst hst
    exact hl
  | none =>
    rw [hl] at h
    dsimp only at h
    cases hfr : f { st with sysSelf := selfId } with
    | mk r s2 =>
      rw [hfr] at h
      dsimp only at h
      cases r with
      | error e => simp at h
      | ok ro =>
        dsimp only at h
        have hst := congrArg Prod.snd h
        dsimp at hst
        have hsp : (⟨s2.nextId, args, ro.getD []⟩ : SpaceRec) = sp := by
          have := congrArg Prod.fst h
          simpa using this
        rw [← hst]
        simp [lookupA, hsp]

/-- C2: once `get_space` has produced a child for some argument values,
any further call with value-equal arguments returns the identical cached
child and leaves the state unchanged, without evaluating any parameter
formula (the result is the same for every formula `f'`); and a further
call with different argument values that constructs or retrieves a child
yields a distinct child instance. -/
theorem get_space_memoized (selfId : Nat) (f : PFormula) (st : ContState)
    (args args' : List Int) (sp : SpaceRec) (st1 : ContState)
    (h1 : get_space selfId f st args = (.ok sp, st1)) :
    (∀ f' : PFormula, get_space selfId f' st1 args = (.ok sp, st1)) ∧
    (ContOk st → FormulaTame f → args' ≠ args →
      ∀ (sp' : SpaceRec) (st2 : ContState),
        get_space selfId f st1 args' = (.ok sp', st2) → sp' ≠ sp) := by
  constructor
  · intro f'
    have hcache := get_space_caches h1
    unfold get_space
    rw [hcache]
  · intro hok htame hne sp' st2 h2
    obtain ⟨hok1, hmem1, _⟩ := get_space_ok_state hok htame h1
    obtain ⟨hok2, hmem2, hmono2⟩ := get_space_ok_state hok1 htame h2
    have hmem1' : (args, sp) ∈ st2.paramSpaces := hmono2 _ hmem1
    intro hspeq
    subst hspeq
    have hne' : (args, sp') ≠ (args', sp') := by
      intro hcontr
      exact hne (congrArg Prod.fst hcontr).symm
    have hsym : Symmetric fun p q : List Int × SpaceRec => p.2.sid ≠ q.2.sid :=
      fun p q hpq => hpq.symm
    exact hok2.2.forall hsym hmem1' hmem2 hne' rfl

/-- A parameter formula returning `None` without touching the state. -/
def fNone : PFormula := fun s => (.ok none, s)

theorem get_space_memoized_witness :
    get_space 1 fNone ⟨[], 0, 0⟩ [1] =
      (.ok ⟨0, [1], []⟩, ⟨[([1], ⟨0, [1], []⟩)], 1, 0⟩) ∧
    get_space 1 fNone ⟨[([1], ⟨0, [1], []⟩)], 1, 0⟩ [1] =
      (.ok ⟨0, [1], []⟩, ⟨[([1], ⟨0, [1], []⟩)], 1, 0⟩) ∧
    (⟨1, [2], []⟩ : SpaceRec) ≠ ⟨0, [1], []⟩ := by
  refine ⟨rfl, ?_, ?_⟩
  · exact (get_space_memoized 1 fNone ⟨[], 0, 0⟩ [1] [2] ⟨0, [1], []⟩
      ⟨[([1], ⟨0, [1], []⟩)], 1, 0⟩ rfl).1 fNone
  · exact (get_space_memoized 1 fNone ⟨[], 0, 0⟩ [1] [2] ⟨0, [1], []⟩
      ⟨[([1], ⟨0, [1], []⟩)], 1, 0⟩ rfl).2 ⟨by simp, by simp⟩
      (fun s => ⟨rfl, le_refl _⟩) (by decide) ⟨1, [2], []⟩
      ⟨[([2], ⟨1, [2], []⟩), ([1], ⟨0, [1], []⟩)], 2, 0⟩ rfl

theorem get_space_restores_sysSelf (selfId : Nat) (f : PFormula)
    (st : ContState) (args : List Int) :
    (get_space selfId f st args).2.sysSelf = st.sysSelf := by
  unfold get_space
  cases hl : lookupA st.paramSpaces args with
  | some sp => rfl
  | none =>
    dsimp only
    cases (f { st with sysSelf := selfId }).1 with
    | error e => rfl
    | ok r => rfl

/-- C8: on a cache miss `get_space` sets the process-wide `system.self`
to the container before invoking the parameter formula (the call's result
depends on the formula only through its behaviour at states whose
`system.self` is this container), and restores it to its previous value
on exit — both when the formula returns normally and when it raises; a
nested `get_space` performed while `system.self` is this container
restores it to this container on exit, giving stack discipline. -/
theorem get_space_sys_self (selfId : Nat) (st : ContState)
    (args : List Int) :
    (∀ f : PFormula, (get_space selfId f st args).2.sysSelf = st.sysSelf) ∧
    (∀ f g : PFormula,
        (∀ s : ContState, s.sysSelf = selfId → f s = g s) →
        get_space selfId f st args = get_space selfId g st args) ∧
    (∀ (b : Nat) (g : PFormula) (bargs : List Int),
        (get_space b g { st with sysSelf := selfId } bargs).2.sysSelf
          = selfId) := by
  refine ⟨fun f => get_space_restores_sysSelf selfId f st args, ?_, ?_⟩
  · intro f g hfg
    unfold get_space
    cases hl : lookupA st.paramSpaces args with
    | some sp => rfl
    | none =>
      dsimp only
      rw [hfg { st with sysSelf := selfId } rfl]
  · intro b g bargs
    exact get_space_restores_sysSelf b g { st with sysSelf := selfId } bargs

/-- A parameter formula that raises, without touching the state. -/
def fRaise : PFormula := fun s => (.error .err, s)

theorem get_space_sys_self_witness :
    (get_space 5 fRaise ⟨[], 0, 7⟩ [1]).2.sysSelf = 7 ∧
    (get_space 3 fNone ⟨[], 0, 5⟩ [2]).2.sysSelf = 5 :=
  ⟨(get_space_sys_self 5 ⟨[], 0, 7⟩ [1]).1 fRaise,
   (get_space_sys_self 3 ⟨[], 0, 5⟩ [2]).1 fNone⟩

/-- Replace a `None` formula result by an explicit empty mapping. -/
def noneToEmpty (f : PFormula) : PFormula := fun s =>
  match f s with
  | (.ok none, s1) => (.ok (some []), s1)
  | r => r

/-- C10: a parameter formula that evaluates to `None` on a cache miss does
not make `get_space` fail: the child is constructed with no construction
parameters besides the call arguments, cached under the argument values
and returned — exactly as for a formula returning an explicit empty
mapping. -/
theorem get_space_none_paramfunc (selfId : Nat) (f : PFormula)
    (st : ContState) (args : List Int)
    (hmiss : lookupA st.paramSpaces args = none)
    (hnone : (f { st with sysSelf := selfId }).1 = .ok none) :
    ∃ (sp : SpaceRec) (st1 : ContState),
      get_space selfId f st args = (.ok sp, st1) ∧
      sp.params = [] ∧ sp.args = args ∧
      lookupA st1.paramSpaces args = some sp ∧
      get_space selfId (noneToEmpty f) st args = (.ok sp, st1) := by
  cases hfr : f { st with sysSelf := selfId } with
  | mk r s2 =>
    have hr : r = .ok none := by rw [hfr] at hnone; exact hnone
    subst hr
    refine ⟨⟨s2.nextId, args, []⟩,
      ⟨(args, ⟨s2.nextId, args, []⟩) :: s2.paramSpaces, s2.nextId + 1,
        st.sysSelf⟩, ?_, rfl, rfl, ?_, ?_⟩
    · unfold get_space
      rw [hmiss]
      dsimp only
      rw [hfr]
      rfl
    · simp [lookupA]
    · have hfr' : noneToEmpty f { st with sysSelf := selfId }
          = (.ok (some []), s2) := by
        unfold noneToEmpty
        rw [hfr]
      unfold get_space
      rw [hmiss]
      dsimp only
      rw [hfr']
      rfl

theorem get_space_none_paramfunc_witness :
    ∃ (sp : SpaceRec) (st1 : ContState),
      get_space 2 fNone ⟨[], 0, 0⟩ [3] = (.ok sp, st1) ∧
      sp.params = [] ∧ sp.args = [3] ∧
      lookupA st1.paramSpaces [3] = some sp ∧
      get_space 2 (noneToEmpty fNone) ⟨[], 0, 0⟩ [3] = (.ok sp, st1) :=
  get_space_none_paramfunc 2 fNone ⟨[], 0, 0⟩ [3] rfl rfl

-- ---------------------------------------------------------------------
-- Derived-cell synthesis (C3) and cell removal (C6)

/-- A cell as seen by the derivation machinery: its owning space (the
parent link, `none` when detached) and the identity of its formula object
(`is` comparison on formulas is identity of the formula object). -/
structure CellObj where
  parent : Option Nat
  formula : Nat
deriving DecidableEq

/-- Modelled from the spec: `CellsImpl(space=..., name=..., func=...)`
(modelx/core/cells.py, which is not under src/) — a new cell bound to the
given container, carrying the base cell's formula. -/
def mkCell (spaceId : Nat) (formula : Nat) : CellObj :=
  ⟨some spaceId, formula⟩

/-- The per-name loop of `DerivedMembers._update_data_cells`, iterating
the base members in dict order: a name with an existing derived cell of
identical formula makes the method `return` (ending the whole update);
otherwise the stale cell is deleted and a fresh derived cell is created
and stored. -/
def update_cells_loop (spaceId : Nat) :
    List (String × CellObj) → List (String × CellObj) →
      List (String × CellObj)
  | data, [] => data
  | data, (key, baseCell) :: rest =>
    match lookupA data key with
    | some c =>
      if c.formula = baseCell.formula then data
      else
        update_cells_loop spaceId
          (insertA (deleteA data key) key (mkCell spaceId baseCell.formula))
          rest
    | none =>
      update_cells_loop spaceId
        (insertA data key (mkCell spaceId baseCell.formula)) rest

/-- `DerivedMembers._update_data_cells`: first delete every derived cell
whose name is not among the base members, then run the per-name loop over
the base members. -/
def update_data_cells (spaceId : Nat)
    (data baseMembers : List (String × CellObj)) :
    List (String × CellObj) :=
  update_cells_loop spaceId
    (data.filter fun p => (lookupA baseMembers p.1).isSome) baseMembers

/-- C3 fails on the code: with inheritable base members `a` (formula `1`)
and `b` (formula `2`), and an existing derived cell `a` whose formula is
identical to the base's, `_update_data_cells` returns as soon as it keeps
`a`, so no derived cell is ever synthesized for the inheritable name `b`
and the data is left exactly as it was. -/
theorem update_data_cells_stops_at_first_kept :
    update_data_cells 0 [("a", ⟨some 0, 1⟩)]
        [("a", ⟨some 9, 1⟩), ("b", ⟨some 9, 2⟩)]
      = [("a", ⟨some 0, 1⟩)] ∧
    lookupA (update_data_cells 0 [("a", ⟨some 0, 1⟩)]
        [("a", ⟨some 9, 1⟩), ("b", ⟨some 9, 2⟩)]) "b" = none := by
  constructor <;> rfl

/-- The own and derived cell maps of a space, as touched by
`SpaceImpl.remove_cells`. -/
structure CSpace where
  selfCells : List (String × CellObj)
  derivedCells : List (String × CellObj)
deriving DecidableEq

/-- `SpaceImpl.remove_cells`: detach the own cell of that name (clear its
parent link and delete it from `_self_cells`), then loop over the direct
bases — the loop's `break` is unconditional, so only the first direct
base is ever examined; when it has a cell of that name, `new_cells`
creates the replacement (and `set_cells` inserts it into `_self_cells`)
and the replacement is also assigned into `_derived_cells`.  The second
component of the result is the detached cell object. -/
def remove_cells (spId : Nat) (sp : CSpace)
    (basesCells : List (List (String × CellObj))) (name : String) :
    CSpace × Option CellObj :=
  let step1 :=
    match lookupA sp.selfCells name with
    | some c =>
      ({ sp with selfCells := deleteA sp.selfCells name },
       some { c with parent := none })
    | none => (sp, none)
  match basesCells with
  | [] => step1
  | bc :: _ =>
    match lookupA bc name with
    | some baseCell =>
      let newCell := mkCell spId baseCell.formula
      ({ selfCells := insertA step1.1.selfCells name newCell,
         derivedCells := insertA step1.1.derivedCells name newCell },
       step1.2)
    | none => step1

/-- C6 fails on the code: `remove_cells` consults only the first direct
base (the loop's `break` sits outside the `if`), so for a space with
direct bases `[A, B]` where only `B` declares a cell `x`, removing the
own cell `x` detaches it but synthesizes no derived replacement — the
name `x` is simply gone, although base `B` still declares it. -/
theorem remove_cells_first_base_only :
    remove_cells 0 ⟨[("x", ⟨some 0, 7⟩)], []⟩
        [[], [("x", ⟨some 1, 9⟩)]] "x"
      = (⟨[], []⟩, some ⟨none, 7⟩) ∧
    lookupA [("x", (⟨some 1, 9⟩ : CellObj))] "x" = some ⟨some 1, 9⟩ := by
  constructor <;> rfl

-- ---------------------------------------------------------------------
-- C9: reverting a derived-member deletion

inductive RevertErr
  | notImplemented
deriving DecidableEq

/-- `SpaceImpl.revert_derived`: unconditionally raises
`NotImplementedError`. -/
def revert_derived (_sp : CSpace) (_name : String) :
    Except RevertErr (CSpace × Bool) :=
  .error .notImplemented

/-- C9: reverting the deletion of a derived member is unsupported: every
call to `revert_derived` raises the unsupported-operation error, and no
call ever returns a (possibly mutated) container state. -/
theorem revert_derived_unsupported :
    ∀ (sp : CSpace) (name : String),
      revert_derived sp name = .error .notImplemented ∧
      ∀ (sp' : CSpace) (b : Bool), revert_derived sp name ≠ .ok (sp', b) := by
  intro sp name
  exact ⟨rfl, fun sp' b h => by simp [revert_derived] at h⟩

-- ---------------------------------------------------------------------
-- C5: name assignment (`SpaceImpl.set_name`)

/-- A cell as seen by `set_name`: the number of parameters of its formula
and the value stored for the empty argument tuple. -/
structure CellEnt where
  nparams : Nat
  value : Option Int
deriving DecidableEq

/-- The namespace-relevant state of a space for `set_name`: the non-own
refs layers (global refs, arguments, derived refs), the own refs, the
cells and the child-space names. -/
structure NsState where
  otherRefs : List (String × Int)
  selfRefs : List (String × Int)
  cells : List (String × CellEnt)
  spaces : List String
deriving DecidableEq

/-- `name in self.refs`: membership in the merged refs view. -/
def refsHas (st : NsState) (name : String) : Bool :=
  (lookupA st.otherRefs name).isSome || (lookupA st.selfRefs name).isSome

/-- `name in self.namespace`: cells, child spaces and refs. -/
def nsHas (st : NsState) (name : String) : Bool :=
  (lookupA st.cells name).isSome || st.spaces.contains name
    || refsHas st name

/-- Value of a name in the merged refs view. -/
def refsLookup (st : NsState) (name : String) : Option Int :=
  match lookupA st.selfRefs name with
  | some v => some v
  | none => lookupA st.otherRefs name

/-- Update the value stored under a key, only where the key is present. -/
def updExisting {κ α : Type} [DecidableEq κ] :
    List (κ × α) → κ → α → List (κ × α)
  | [], _, _ => []
  | (k, w) :: rest, key, v =>
    if k = key then (k, v) :: updExisting rest key v
    else (k, w) :: updExisting rest key v

theorem lookupA_updExisting_self {κ α : Type} [DecidableEq κ] :
    ∀ (l : List (κ × α)) (k : κ) (v : α),
      lookupA (updExisting l k v) k = (lookupA l k).map fun _ => v := by
  intro l k v
  induction l with
  | nil => simp [updExisting, lookupA]
  | cons p rest ih =>
    obtain ⟨k0, w⟩ := p
    by_cases hk : k0 = k
    · simp [updExisting, lookupA, hk]
    · simp [updExisting, lookupA, hk, ih]

/-- Modelled from the spec: assignment through the merged refs view
(`self.refs[name] = value`; `LazyEvalChainMap.__setitem__` lives in
modelx/core/base.py, which is not under src/) — the named reference's
value becomes the assigned value in whichever layer holds it. -/
def updateRef (st : NsState) (name : String) (v : Int) : NsState :=
  { st with otherRefs := updExisting st.otherRefs name v,
            selfRefs := updExisting st.selfRefs name v }

inductive SetNameErr
  | invalidName
  | notScalar
  | cannotAssign
deriving DecidableEq

/-- Modelled from the spec: `CellsImpl.has_single_value` and
`CellsImpl.set_value((), value)` (modelx/core/cells.py, not under src/) —
a cell holds a single value when its formula takes no parameters, and the
scalar assignment stores the value under the empty argument tuple. -/
def set_cell_value (c : CellEnt) (v : Int) : CellEnt :=
  { c with value := some v }

/-- `SpaceImpl.set_name`: reject invalid names; when the name is in the
merged namespace — as a ref, update it through the merged refs view and
propagate invalidation (`set_update(skip_self=False)`); else as a cell,
overwrite a parameterless cell's single value or fail for a parametrized
one; else (a child space) reject.  When the name is not in the namespace,
create a new own ref (`self._self_refs[name] = value`, followed by
`set_update`).  The returned flag records whether `set_update` was called
on a refs map. -/
def set_name (st : NsState) (name : String) (v : Int) :
    Except SetNameErr (NsState × Bool) :=
  if !(is_valid_name name) then .error .invalidName
  else if nsHas st name then
    if refsHas st name then .ok (updateRef st name v, true)
    else
      match lookupA st.cells name with
      | some c =>
        if c.nparams = 0 then
          .ok ({ st with cells := insertA st.cells name (set_cell_value c v) },
               false)
        else .error .notScalar
      | none => .error .cannotAssign
  else .ok ({ st with selfRefs := insertA st.selfRefs name v }, true)

/-- C5: `set_name` on a valid name: a name present as a reference is
updated (the merged refs view then yields the new value, cells and spaces
are untouched) with invalidation propagated; a parameterless cell's
single value is overwritten; a parametrized cell is rejected; a name held
by a child space is rejected; an absent name creates a new own reference
holding the value. -/
theorem set_name_spec (st : NsState) (name : String) (v : Int)
    (hvalid : is_valid_name name = true) :
    (refsHas st name = true →
      set_name st name v = .ok (updateRef st name v, true) ∧
      refsLookup (updateRef st name v) name = some v ∧
      (updateRef st name v).cells = st.cells ∧
      (updateRef st name v).spaces = st.spaces) ∧
    (refsHas st name = false →
      ∀ c : CellEnt, lookupA st.cells name = some c →
        (c.nparams = 0 →
          set_name st name v =
            .ok ({ st with
                    cells := insertA st.cells name (set_cell_value c v) },
                 false) ∧
          lookupA (insertA st.cells name (set_cell_value c v)) name
            = some ⟨c.nparams, some v⟩) ∧
        (c.nparams ≠ 0 → set_name st name v = .error .notScalar)) ∧
    (refsHas st name = false → lookupA st.cells name = none →
      st.spaces.contains name = true →
      set_name st name v = .error .cannotAssign) ∧
    (nsHas st name = false →
      set_name st name v =
        .ok ({ st with selfRefs := insertA st.selfRefs name v }, true) ∧
      lookupA (insertA st.selfRefs name v) name = some v) := by
  refine ⟨?_, ?_, ?_, ?_⟩
  · intro hr
    have hns : nsHas st name = true := by simp [nsHas, hr]
    refine ⟨by simp [set_name, hvalid, hns, hr], ?_, rfl, rfl⟩
    unfold refsLookup
    dsimp only [updateRef]
    rw [lookupA_updExisting_self, lookupA_updExisting_self]
    unfold refsHas at hr
    cases hself : lookupA st.selfRefs name with
    | some w => simp
    | none =>
      cases hother : lookupA st.otherRefs name with
      | some w => simp
      | none => simp [hself, hother] at hr
  · intro hr c hc
    have hns : nsHas st name = true := by simp [nsHas, hc]
    constructor
    · intro h0
      refine ⟨by simp [set_name, hvalid, hns, hr, hc, h0], ?_⟩
      rw [lookupA_insertA_self]
      simp [set_cell_value]
    · intro h0
      simp [set_name, hvalid, hns, hr, hc, h0]
  · intro hr hc hsp
    have hmem : name ∈ st.spaces := by simpa using hsp
    have hns : nsHas st name = true := by
      simp [nsHas]
      exact Or.inl (Or.inr hmem)
    simp [set_name, hvalid, hns, hr, hc]
  · intro hns
    exact ⟨by simp [set_name, hvalid, hns], lookupA_insertA_self _ _ _⟩

def nsEx : NsState := ⟨[("r", 1)], [], [("c", ⟨0, none⟩)], ["S"]⟩

theorem set_name_spec_witness :
    is_valid_name "r" = true ∧ refsHas nsEx "r" = true ∧
    set_name nsEx "r" 5 = .ok (updateRef nsEx "r" 5, true) ∧
    refsLookup (updateRef nsEx "r" 5) "r" = some 5 := by
  have h := (set_name_spec nsEx "r" 5 (by decide)).1 (by decide)
  exact ⟨by decide, by decide, h.1, h.2.1⟩

end ModelxSpace
